import Mathlib

/-!
Verification of the BPE tokenizer in `src/rag/tokenizer_advanced.py`
(`class BPETokenizer`).

Python strings are modelled as `List Char` (`Str`); Python dicts, which
preserve insertion order and are the only ordered containers the code
relies on, are modelled as association lists with unique keys where
insertion updates in place and new keys are appended.  `re`'s `\w` is
modelled by its ASCII table (alphanumeric or underscore), `\s` by ASCII
whitespace, and `str.lower` by ASCII case folding; all concrete inputs
used below are ASCII, where these models agree with Python exactly.
-/

namespace BPE

/-- A Python string, modelled as its list of characters. -/
abbrev Str := List Char

/-- Model of `re`'s `\w` character class, ASCII table: alphanumeric or underscore. -/
def isWordChar (c : Char) : Bool := c.isAlphanum || c == '_'

/-- Model of `re`'s `\s` character class, ASCII table:
space, `\t`, `\n`, `\v`, `\f`, `\r`. -/
def isSpaceChar (c : Char) : Bool :=
  c == ' ' || c == '\t' || c == '\n' || c == Char.ofNat 11 || c == Char.ofNat 12 || c == '\r'

/-- ASCII case folding, `str.lower`. -/
def pyLower (s : Str) : Str := s.map Char.toLower

/-- First value stored under a key in an association list.  All dicts built
below have unique keys, so this is Python dict lookup. -/
def dictGet? {α β : Type} [DecidableEq α] : List (α × β) → α → Option β
  | [], _ => none
  | (k, v) :: rest, key => if k = key then some v else dictGet? rest key

/-- Python dict assignment `d[k] = v`: update in place if the key exists,
else append, preserving insertion order. -/
def dictSet {α β : Type} [DecidableEq α] : List (α × β) → α → β → List (α × β)
  | [], key, val => [(key, val)]
  | (k, v) :: rest, key, val =>
    if k = key then (k, val) :: rest else (k, v) :: dictSet rest key val

/-- Counter increment, `collections.Counter` / `defaultdict(int)`: `d[k] += n`. -/
def dictAdd {α : Type} [DecidableEq α] : List (α × Nat) → α → Nat → List (α × Nat)
  | [], key, n => [(key, n)]
  | (k, v) :: rest, key, n =>
    if k = key then (k, v + n) :: rest else (k, v) :: dictAdd rest key n

/-- The four special tokens, in the order fixed by `__init__`. -/
def padToken : Str := "<|pad|>".data
def unkToken : Str := "<|unk|>".data
def bosToken : Str := "<|bos|>".data
def eosToken : Str := "<|eos|>".data

def specialTokens : List Str := [padToken, unkToken, bosToken, eosToken]

/-- Scanner of `_pre_tokenize`: `re.findall(r'\w+|[^\w\s]', text.lower())`, as a
left-to-right scan.  `acc` holds the current (reversed) `\w+` run. -/
def preTokenizeAux : List Char → List Char → List Str
  | [], acc => if acc = [] then [] else [acc.reverse]
  | c :: rest, acc =>
    if isWordChar c then preTokenizeAux rest (c :: acc)
    else
      (if acc = [] then [] else [acc.reverse]) ++
      (if isSpaceChar c then preTokenizeAux rest []
       else [c] :: preTokenizeAux rest [])

/-- Model of `BPETokenizer._pre_tokenize`. -/
def preTokenize (text : Str) : List Str := preTokenizeAux (pyLower text) []

/-- One left-to-right sweep of the merge loop shared by `train`'s split
update and `_tokenize_word`: replace every non-overlapping adjacent
occurrence of the pair, scanning left to right. -/
def applyMerge (p : Str × Str) : List Str → List Str
  | [] => []
  | [x] => [x]
  | x :: y :: rest =>
    if x = p.1 ∧ y = p.2 then (p.1 ++ p.2) :: applyMerge p rest
    else x :: applyMerge p (y :: rest)

/-- The merge-application loop of `_tokenize_word`, with the early break
once a single symbol remains. -/
def tokenizeWordAux : List (Str × Str) → List Str → List Str
  | [], chars => chars
  | m :: ms, chars =>
    let nc := applyMerge m chars
    if nc.length = 1 then nc else tokenizeWordAux ms nc

/-- Model of `BPETokenizer._tokenize_word`. -/
def tokenizeWord (merges : List (Str × Str)) (word : Str) : List Str :=
  if merges = [] then word.map (fun c => [c])
  else tokenizeWordAux merges (word.map (fun c => [c]))

/-- The word-frequency `Counter` accumulated over the corpus. -/
def buildWordFreqs (texts : List Str) : List (Str × Nat) :=
  texts.foldl (fun d t => (preTokenize t).foldl (fun d w => dictAdd d w 1) d) []

/-- Seeding of the vocabulary list: special tokens, then every distinct
character of any word in first-seen order. -/
def seedVocab (wf : List (Str × Nat)) : List Str :=
  wf.foldl (fun v p => p.1.foldl
    (fun v c => if [c] ∈ v then v else v ++ [[c]]) v) specialTokens

/-- Initial splits: each word mapped to its character sequence. -/
def initSplits (wf : List (Str × Nat)) : List (Str × List Str) :=
  wf.map (fun p => (p.1, p.1.map (fun c => [c])))

/-- Add every adjacent pair of a split, weighted by the word frequency,
in left-to-right order. -/
def addPairs (freq : Nat) : List Str → List ((Str × Str) × Nat) → List ((Str × Str) × Nat)
  | x :: y :: rest, d => addPairs freq (y :: rest) (dictAdd d (x, y) freq)
  | _, d => d

/-- The pair-frequency `defaultdict` of one training iteration. -/
def buildPairFreqs (wf : List (Str × Nat)) (splits : List (Str × List Str)) :
    List ((Str × Str) × Nat) :=
  wf.foldl (fun d p =>
    let split := (dictGet? splits p.1).getD []
    if split.length = 1 then d else addPairs p.2 split d) []

/-- Selection by `max(pair_freqs, key=pair_freqs.get)`: the first entry
attaining the maximal count, in insertion order. -/
def pickBest : List ((Str × Str) × Nat) → Option (Str × Str)
  | [] => none
  | e :: rest => some (rest.foldl (fun best x => if x.2 > best.2 then x else best) e).1

/-- Mutable training state of the merge-learning loop. -/
structure TrainState where
  wordFreqs : List (Str × Nat)
  splits : List (Str × List Str)
  vocab : List Str
  merges : List (Str × Str)
deriving DecidableEq

/-- Select the best pair of the current iteration, if any pair exists. -/
def trainStep? (st : TrainState) : Option (Str × Str) :=
  pickBest (buildPairFreqs st.wordFreqs st.splits)

/-- The body of one successful merge iteration: record the merge, append
the merged token to the vocabulary, rewrite every split. -/
def applyStep (st : TrainState) (bp : Str × Str) : TrainState :=
  { st with
    splits := st.splits.map (fun p =>
      (p.1, if p.2.length = 1 then p.2 else applyMerge bp p.2)),
    vocab := st.vocab ++ [bp.1 ++ bp.2],
    merges := st.merges ++ [bp] }

/-- The `while len(vocab) < self.vocab_size` loop.  Each successful
iteration appends exactly one token, so after `k` iterations the
vocabulary holds `len₀ + k` entries and the guard fails once
`len₀ + k ≥ vocab_size`; fuel `vocab_size` therefore never runs out
before the guard does (see `trainLoop_fuel_sufficient`). -/
def trainLoop (vocabSize : Nat) : Nat → TrainState → TrainState
  | 0, st => st
  | fuel + 1, st =>
    if st.vocab.length < vocabSize then
      match trainStep? st with
      | none => st
      | some bp => trainLoop vocabSize fuel (applyStep st bp)
    else st

/-- Trained tokenizer state: `vocab_size`, the final `vocab` dict, the
ordered `merges`, and `inv_vocab`. -/
structure Tokenizer where
  vocabSize : Nat
  vocab : List (Str × Nat)
  merges : List (Str × Str)
  invVocab : List (Nat × Str)
deriving DecidableEq

/-- Final vocabulary dict, `{token: idx for idx, token in enumerate(vocab)}`. -/
def mkVocabDict (vocab : List Str) : List (Str × Nat) :=
  (vocab.enum).foldl (fun d p => dictSet d p.2 p.1) []

/-- Inverse vocabulary dict, `{idx: token for token, idx in vocab.items()}`
(also the reconstruction performed by `load`). -/
def mkInvVocab (vocab : List (Str × Nat)) : List (Nat × Str) :=
  vocab.foldl (fun d p => dictSet d p.2 p.1) []

/-- Model of `BPETokenizer.train` (the `verbose` printing has no effect on
the resulting state). -/
def train (texts : List Str) (vocabSize : Nat) : Tokenizer :=
  let wf := buildWordFreqs texts
  let st := trainLoop vocabSize vocabSize
    { wordFreqs := wf, splits := initSplits wf, vocab := seedVocab wf, merges := [] }
  let vocabDict := mkVocabDict st.vocab
  { vocabSize := vocabSize, vocab := vocabDict, merges := st.merges,
    invVocab := mkInvVocab vocabDict }

/-- The id-emitting loop of `encode`: each symbol's id, or the id of the
unknown token for symbols absent from the vocabulary.
`self.vocab[self.unk_token]` raises `KeyError` when the unknown token is
itself absent; this fallibility is modelled by `Option`. -/
def encodeTokens (vocab : List (Str × Nat)) : List Str → Option (List Nat)
  | [] => some []
  | tok :: rest =>
    match (match dictGet? vocab tok with
           | some id => some id
           | none => dictGet? vocab unkToken) with
    | none => none
    | some id => (encodeTokens vocab rest).map (fun ids => id :: ids)

/-- Model of `BPETokenizer.encode`. -/
def encode (t : Tokenizer) (text : Str) : Option (List Nat) :=
  encodeTokens t.vocab (((preTokenize text).map (tokenizeWord t.merges)).flatten)

/-- Model of `BPETokenizer.decode`. -/
def decode (t : Tokenizer) (tokenIds : List Nat) : Str :=
  (tokenIds.filterMap (fun id =>
    match dictGet? t.invVocab id with
    | some tok => if tok ∈ specialTokens then none else some tok
    | none => none)).flatten

/-- The persisted JSON record.  A field read with `data[...]` may be
absent from the file, hence the `Option`s. -/
structure PersistedFile where
  vocabField : Option (List (Str × Nat))
  mergesField : Option (List (Str × Str))
  vocabSizeField : Option Nat
deriving DecidableEq

/-- Model of `BPETokenizer.save`: writes `vocab`, `merges` and `vocab_size`. -/
def save (t : Tokenizer) : PersistedFile :=
  { vocabField := some t.vocab, mergesField := some t.merges,
    vocabSizeField := some t.vocabSize }

/-- Reading `data['...']` on a missing key raises `KeyError`. -/
inductive LoadError where
  | keyError
deriving DecidableEq

/-- Model of `BPETokenizer.load`: restores the three fields and rebuilds
`inv_vocab`; no validation beyond the implicit `KeyError`s. -/
def load (f : PersistedFile) : Except LoadError Tokenizer :=
  match f.vocabField, f.mergesField, f.vocabSizeField with
  | some v, some m, some vs =>
    .ok { vocabSize := vs, vocab := v, merges := m, invVocab := mkInvVocab v }
  | _, _, _ => .error .keyError

/-! Specification-side definitions, used to state the claims. -/

/-- The spec's contiguity requirement on a persisted vocabulary mapping:
the recovered ids are exactly `{0, …, n-1}`. -/
def idsContiguousFrom0 (v : List (Str × Nat)) : Prop :=
  (v.map Prod.snd).toFinset = Finset.range v.length

instance (v : List (Str × Nat)) : Decidable (idsContiguousFrom0 v) := by
  unfold idsContiguousFrom0; infer_instance

/-- Declarative word segmentation: the text is partitioned, in order, into
maximal runs of word characters and single non-word, non-space characters,
with whitespace discarded.  (The amended claim C9 uses word characters,
i.e. alphanumeric or underscore, where the original claim said
alphanumeric.)  Maximality of a run is enforced by requiring that the
following character, if any, is not a word character. -/
inductive Segmentation : List Char → List Str → Prop where
  | nil : Segmentation [] []
  | space {c : Char} {rest : List Char} {segs : List Str} :
      isSpaceChar c = true → Segmentation rest segs →
      Segmentation (c :: rest) segs
  | single {c : Char} {rest : List Char} {segs : List Str} :
      isWordChar c = false → isSpaceChar c = false → Segmentation rest segs →
      Segmentation (c :: rest) ([c] :: segs)
  | run {cs r rest : List Char} {segs : List Str} :
      cs = r ++ rest → r ≠ [] → r.all isWordChar = true →
      (∀ c, rest.head? = some c → isWordChar c = false) →
      Segmentation rest segs →
      Segmentation cs (r :: segs)

/-- Invariants carried through training, used for claims C6 and C7:
every key of the split table is a pre-tokenizer output (nonempty, and a
word-character run unless it is a single character), every split
concatenates back to its word and contains no empty symbol. -/
def SplitsOk (splits : List (Str × List Str)) : Prop :=
  ∀ p ∈ splits,
    (p.1 ≠ [] ∧ (p.1.all isWordChar = true ∨ ∃ c, p.1 = [c])) ∧
    p.2.flatten = p.1 ∧ ∀ s ∈ p.2, s ≠ []

/-- Invariant on the working vocabulary list: the four special tokens
first, then entries that are single characters or nonempty
word-character strings (hence never equal to a special token). -/
def VocabOk (v : List Str) : Prop :=
  ∃ rest, v = specialTokens ++ rest ∧
    ∀ s ∈ rest, (∃ c, s = [c]) ∨ (s ≠ [] ∧ s.all isWordChar = true)

/-- Joint training-state invariant. -/
def StateOk (st : TrainState) : Prop := SplitsOk st.splits ∧ VocabOk st.vocab

/-! Definitions for the analysis of claim C7: the merged tokens learned by
training are pairwise distinct, because the sweep keeps the block
structure of equal substrings equal across the whole split table. -/

/-- Undo one sweep at the level of symbol sequences: replace every symbol
equal to the merged token by the pair it abbreviates. -/
def expandMerge (p : Str × Str) (l : List Str) : List Str :=
  (l.map (fun b => if b = p.1 ++ p.2 then [p.1, p.2] else [b])).flatten

/-- Contiguous chunk of a list. -/
def IsChunk {α : Type} (r l : List α) : Prop := ∃ pre post, l = pre ++ r ++ post

/-- A run of the split table: a contiguous chunk of some word's split. -/
def IsRun (splits : List (Str × List Str)) (r : List Str) : Prop :=
  ∃ q ∈ splits, IsChunk r q.2

/-- Run uniqueness: any two runs of the split table that spell the same
string are the same symbol sequence. -/
def RunsUnique (splits : List (Str × List Str)) : Prop :=
  ∀ r₁ r₂, IsRun splits r₁ → IsRun splits r₂ → r₁.flatten = r₂.flatten → r₁ = r₂

/-- Freshness: no run of two or more symbols spells an already-merged
token. -/
def RunsFresh (splits : List (Str × List Str)) (M : List Str) : Prop :=
  ∀ r, IsRun splits r → 2 ≤ r.length → r.flatten ∉ M

/-- The tokens produced by a merge sequence, in order. -/
def mergeTokens (merges : List (Str × Str)) : List Str :=
  merges.map (fun m => m.1 ++ m.2)

/-- Combined loop invariant for claim C7. -/
def C7Inv (seed : List Str) (st : TrainState) : Prop :=
  StateOk st ∧ RunsUnique st.splits ∧
  RunsFresh st.splits (mergeTokens st.merges) ∧
  st.vocab = seed ++ mergeTokens st.merges ∧
  (mergeTokens st.merges).Nodup ∧
  ∀ g ∈ mergeTokens st.merges, 2 ≤ g.length ∧ g.all isWordChar = true

/-! ### General lemmas about the dictionary model -/

theorem dictGet?_dictSet {α β : Type} [DecidableEq α]
    (d : List (α × β)) (k : α) (v : β) (key : α) :
    dictGet? (dictSet d k v) key = if k = key then some v else dictGet? d key := by
  induction d with
  | nil => simp [dictSet, dictGet?]
  | cons e rest ih =>
    obtain ⟨k', v'⟩ := e
    by_cases h : k' = k
    · subst h
      by_cases h2 : k' = key <;> simp [dictSet, dictGet?, h2]
    · by_cases h2 : k' = key
      · subst h2
        have : k ≠ k' := fun he => h he.symm
        simp [dictSet, dictGet?, h, this]
      · simp [dictSet, dictGet?, h, h2, ih]

theorem dictGet?_mem {α β : Type} [DecidableEq α]
    {d : List (α × β)} {k : α} {v : β} (h : dictGet? d k = some v) : (k, v) ∈ d := by
  induction d with
  | nil => simp [dictGet?] at h
  | cons e rest ih =>
    obtain ⟨k', v'⟩ := e
    by_cases h2 : k' = k
    · subst h2
      simp [dictGet?] at h
      simp [h]
    · simp [dictGet?, h2] at h
      exact List.mem_cons_of_mem _ (ih h)

theorem dictAdd_keys {α : Type} [DecidableEq α]
    (d : List (α × Nat)) (k : α) (n : Nat) :
    (dictAdd d k n).map Prod.fst = d.map Prod.fst ∨
    (dictAdd d k n).map Prod.fst = d.map Prod.fst ++ [k] := by
  induction d with
  | nil => right; simp [dictAdd]
  | cons e rest ih =>
    obtain ⟨k', v'⟩ := e
    by_cases h : k' = k
    · left; simp [dictAdd, h]
    · rcases ih with ih | ih
      · left; simp [dictAdd, h, ih]
      · right; simp [dictAdd, h, ih]

/-! ### The sweep preserves the character content of a split (claim C10) -/

theorem applyMerge_flatten (p : Str × Str) :
    ∀ l : List Str, (applyMerge p l).flatten = l.flatten
  | [] => by simp [applyMerge]
  | [x] => by simp [applyMerge]
  | x :: y :: rest => by
    by_cases h : x = p.1 ∧ y = p.2
    · obtain ⟨h1, h2⟩ := h
      simp [applyMerge, h1, h2, applyMerge_flatten p rest]
    · simp only [applyMerge, if_neg h]
      simp [applyMerge_flatten p (y :: rest)]

theorem tokenizeWordAux_flatten (ms : List (Str × Str)) (chars : List Str) :
    (tokenizeWordAux ms chars).flatten = chars.flatten := by
  induction ms generalizing chars with
  | nil => rfl
  | cons m ms ih =>
    simp only [tokenizeWordAux]
    split
    · exact applyMerge_flatten m chars
    · rw [ih]
      exact applyMerge_flatten m chars

theorem flatten_map_singleton (w : Str) : (w.map (fun c => [c])).flatten = w := by
  induction w <;> simp [*]

/-- C10: for every word and every merge sequence, concatenating the
symbols returned by `_tokenize_word` yields exactly the original word —
merging only ever joins adjacent symbols and never inserts, drops, or
reorders characters. -/
theorem claim_C10 (merges : List (Str × Str)) (word : Str) :
    (tokenizeWord merges word).flatten = word := by
  unfold tokenizeWord
  split
  · exact flatten_map_singleton word
  · rw [tokenizeWordAux_flatten]
    exact flatten_map_singleton word

/-! ### Determinism (claim C3) -/

/-- C3: `train` is deterministic — two runs on an identical corpus with
an identical `vocab_size` produce identical token-to-id vocabularies and
identical ordered merge sequences.  In this embedding the Python dict
iteration orders the code relies on are fixed explicitly, making `train`
a pure function of its arguments. -/
theorem claim_C3 (texts₁ texts₂ : List Str) (vs₁ vs₂ : Nat)
    (ht : texts₁ = texts₂) (hv : vs₁ = vs₂) :
    (train texts₁ vs₁).vocab = (train texts₂ vs₂).vocab ∧
    (train texts₁ vs₁).merges = (train texts₂ vs₂).merges := by
  subst ht; subst hv; exact ⟨rfl, rfl⟩

/-- Witness for C3 at a concrete corpus. -/
theorem claim_C3_witness :
    (train ["ab".data] 6).vocab = (train ["ab".data] 6).vocab ∧
    (train ["ab".data] 6).merges = (train ["ab".data] 6).merges :=
  claim_C3 ["ab".data] ["ab".data] 6 6 rfl rfl

/-! ### Save/load round trip (claim C4) -/

/-- C4: for every trained tokenizer, `load (save t)` succeeds and yields
a tokenizer whose `encode` and `decode` agree with `t` on every input
text and every id sequence. -/
theorem claim_C4 (texts : List Str) (vocabSize : Nat) (text : Str) (ids : List Nat) :
    ∃ t', load (save (train texts vocabSize)) = Except.ok t' ∧
      encode t' text = encode (train texts vocabSize) text ∧
      decode t' ids = decode (train texts vocabSize) ids :=
  ⟨train texts vocabSize, rfl, rfl, rfl⟩

/-! ### Vocabulary growth (claim C1) -/

theorem applyStep_vocab_length (st : TrainState) (bp : Str × Str) :
    (applyStep st bp).vocab.length = st.vocab.length + 1 := by
  simp [applyStep]

/-- Fuel `vocab_size` is exact for the training loop: any two sufficient
fuels yield the same result, so the fuelled loop is the `while` loop. -/
theorem trainLoop_fuel_sufficient (vocabSize : Nat) :
    ∀ fuel₁ fuel₂ (st : TrainState), vocabSize - st.vocab.length ≤ fuel₁ →
      vocabSize - st.vocab.length ≤ fuel₂ →
      trainLoop vocabSize fuel₁ st = trainLoop vocabSize fuel₂ st := by
  intro fuel₁
  induction fuel₁ with
  | zero =>
    intro fuel₂ st h1 _
    have hg : ¬ st.vocab.length < vocabSize := by omega
    cases fuel₂ <;> simp [trainLoop, hg]
  | succ f ih =>
    intro fuel₂ st h1 h2
    by_cases hg : st.vocab.length < vocabSize
    · obtain ⟨f2, rfl⟩ : ∃ f2, fuel₂ = f2 + 1 := by
        cases fuel₂ with
        | zero => omega
        | succ f2 => exact ⟨f2, rfl⟩
      simp only [trainLoop, if_pos hg]
      cases hs : trainStep? st with
      | none => rfl
      | some bp =>
        simp only
        apply ih
        · rw [applyStep_vocab_length]; omega
        · rw [applyStep_vocab_length]; omega
    · cases fuel₂ <;> simp [trainLoop, hg]

theorem dictSet_length_le {α β : Type} [DecidableEq α] (d : List (α × β)) (k : α) (v : β) :
    (dictSet d k v).length ≤ d.length + 1 := by
  induction d with
  | nil => simp [dictSet]
  | cons e rest ih =>
    obtain ⟨k', v'⟩ := e
    by_cases h : k' = k
    · simp [dictSet, h]
    · simp [dictSet, h]
      omega

theorem mkVocabDict_length_aux (l : List (Nat × Str)) (d : List (Str × Nat)) :
    (l.foldl (fun d p => dictSet d p.2 p.1) d).length ≤ d.length + l.length := by
  induction l generalizing d with
  | nil => simp
  | cons p rest ih =>
    have h1 := ih (dictSet d p.2 p.1)
    have h2 := dictSet_length_le d p.2 p.1
    simp only [List.foldl_cons, List.length_cons]
    omega

theorem mkVocabDict_length_le (v : List Str) : (mkVocabDict v).length ≤ v.length := by
  have := mkVocabDict_length_aux v.enum []
  simpa [mkVocabDict] using this

theorem trainLoop_vocab_length_le (vocabSize : Nat) :
    ∀ fuel (st : TrainState),
      (trainLoop vocabSize fuel st).vocab.length ≤ max st.vocab.length vocabSize := by
  intro fuel
  induction fuel with
  | zero => intro st; simp [trainLoop, Nat.le_max_left]
  | succ f ih =>
    intro st
    by_cases hg : st.vocab.length < vocabSize
    · simp only [trainLoop, if_pos hg]
      cases hs : trainStep? st with
      | none => exact Nat.le_max_left _ _
      | some bp =>
        simp only
        have h := ih (applyStep st bp)
        rw [applyStep_vocab_length] at h
        omega
    · simp [trainLoop, hg, Nat.le_max_left]

/-- C1 counterexample: with `vocab_size = 1` and corpus `["a"]`, the
seeded vocabulary (four specials plus the character `a`) already has five
entries, the merge loop never runs, and the final trained vocabulary has
size `5 > 1` — the trained size exceeds the configured `vocab_size`. -/
theorem claim_C1_counterexample :
    (train ["a".data] 1).vocab.length = 5 ∧
    ¬ ((train ["a".data] 1).vocab.length ≤ 1) :=
  ⟨by decide, by decide⟩

/-- C1 amended: every successful merge iteration grows the working
vocabulary by exactly one; and the final trained vocabulary size never
exceeds the larger of the seeded vocabulary size (special tokens plus
distinct corpus characters) and the configured `vocab_size`. -/
theorem claim_C1_amended :
    (∀ (st : TrainState) (bp : Str × Str), trainStep? st = some bp →
      (applyStep st bp).vocab.length = st.vocab.length + 1) ∧
    ∀ (texts : List Str) (vocabSize : Nat),
      (train texts vocabSize).vocab.length ≤
        max (seedVocab (buildWordFreqs texts)).length vocabSize := by
  constructor
  · intro st bp _
    exact applyStep_vocab_length st bp
  · intro texts vs
    show (mkVocabDict _).length ≤ _
    calc (mkVocabDict (trainLoop vs vs
            { wordFreqs := buildWordFreqs texts,
              splits := initSplits (buildWordFreqs texts),
              vocab := seedVocab (buildWordFreqs texts), merges := [] }).vocab).length
        ≤ (trainLoop vs vs
            { wordFreqs := buildWordFreqs texts,
              splits := initSplits (buildWordFreqs texts),
              vocab := seedVocab (buildWordFreqs texts), merges := [] }).vocab.length :=
          mkVocabDict_length_le _
      _ ≤ max (seedVocab (buildWordFreqs texts)).length vs := trainLoop_vocab_length_le vs vs _

/-- Witness for the amended C1, at the corpus `["ab"]`. -/
theorem claim_C1_amended_witness :
    (applyStep
        { wordFreqs := buildWordFreqs ["ab".data],
          splits := initSplits (buildWordFreqs ["ab".data]),
          vocab := seedVocab (buildWordFreqs ["ab".data]), merges := [] }
        ("a".data, "b".data)).vocab.length =
      (seedVocab (buildWordFreqs ["ab".data])).length + 1 ∧
    (train ["ab".data] 7).vocab.length ≤
      max (seedVocab (buildWordFreqs ["ab".data])).length 7 :=
  ⟨claim_C1_amended.1 _ _ (by decide), claim_C1_amended.2 ["ab".data] 7⟩

/-! ### The first learned merge of the spec's example corpus (claim C2) -/

/-- C2 counterexample: on the corpus
`["the cat sat on the mat", "the cat ate"]` with `vocab_size = 30`, the
pair `(a, t)` occurs 5 times (`cat` twice, `sat`, `mat`, `ate`) while
`(t, h)` occurs only 3 times, so the first recorded merge is `(a, t)`,
not `(t, h)` as claimed. -/
theorem claim_C2_counterexample :
    (train ["the cat sat on the mat".data, "the cat ate".data] 30).merges.head? =
      some ("a".data, "t".data) ∧
    (("a".data, "t".data) : Str × Str) ≠ ("t".data, "h".data) :=
  ⟨by decide, by decide⟩

/-- C2 amended: training on `["the cat sat on the mat", "the cat ate"]`
with `vocab_size = 30` records `(a, t)` as the first merge rule. -/
theorem claim_C2_amended :
    (train ["the cat sat on the mat".data, "the cat ate".data] 30).merges.head? =
      some ("a".data, "t".data) := by
  decide

/-! ### Deserialization (claim C5) -/

/-- C5 counterexample: a persisted record whose vocabulary ids are not
contiguous from 0 (the single entry `a ↦ 5`) is accepted by `load`
without any error — `load` performs no contiguity validation. -/
theorem claim_C5_counterexample :
    ¬ idsContiguousFrom0 [(['a'], 5)] ∧
    load ⟨some [(['a'], 5)], some [], some 10⟩ =
      Except.ok ⟨10, [(['a'], 5)], [], [(5, ['a'])]⟩ :=
  ⟨by decide, rfl⟩

/-- C5 amended: `load` fails (with the `KeyError` of a missing dict key)
whenever one of the required fields `vocab`, `merges`, `vocab_size` is
absent; when all three are present it accepts the record unconditionally,
rebuilding `inv_vocab` — in particular it silently accepts vocabularies
whose ids are not contiguous. -/
theorem claim_C5_amended :
    (∀ f : PersistedFile,
      f.vocabField = none ∨ f.mergesField = none ∨ f.vocabSizeField = none →
      load f = Except.error LoadError.keyError) ∧
    ∀ (v : List (Str × Nat)) (m : List (Str × Str)) (vs : Nat),
      load ⟨some v, some m, some vs⟩ = Except.ok ⟨vs, v, m, mkInvVocab v⟩ := by
  constructor
  · intro f h
    obtain ⟨a, b, c⟩ := f
    rcases h with h | h | h <;> simp only at h <;> subst h <;>
      first
        | (cases b <;> cases c <;> rfl)
        | (cases a <;> cases c <;> rfl)
        | (cases a <;> cases b <;> rfl)
  · intro v m vs
    rfl

/-- Witness for the amended C5. -/
theorem claim_C5_amended_witness :
    load ⟨none, some [], some 0⟩ = Except.error LoadError.keyError ∧
    load ⟨some [(['a'], 5)], some [], some 10⟩ =
      Except.ok ⟨10, [(['a'], 5)], [], mkInvVocab [(['a'], 5)]⟩ :=
  ⟨claim_C5_amended.1 _ (Or.inl rfl), claim_C5_amended.2 _ _ _⟩

/-! ### Decoding (claim C8) -/

theorem decode_cons (t : Tokenizer) (id : Nat) (rest : List Nat) :
    decode t (id :: rest) = decode t [id] ++ decode t rest := by
  simp only [decode]
  rw [show (id :: rest) = [id] ++ rest from rfl, List.filterMap_append, List.flatten_append]

/-- C8: `decode` maps each id independently and concatenates the results
with no inserted separator; a single id decodes to its token when it is
mapped and not special, and to the empty string when it is unmapped or
maps to one of the four special tokens. -/
theorem claim_C8 (t : Tokenizer) (ids : List Nat) :
    decode t ids = (ids.map (fun id => decode t [id])).flatten ∧
    (∀ id, dictGet? t.invVocab id = none → decode t [id] = []) ∧
    (∀ id tok, dictGet? t.invVocab id = some tok → tok ∈ specialTokens →
      decode t [id] = []) ∧
    (∀ id tok, dictGet? t.invVocab id = some tok → tok ∉ specialTokens →
      decode t [id] = tok) := by
  refine ⟨?_, ?_, ?_, ?_⟩
  · induction ids with
    | nil => rfl
    | cons id rest ih => rw [decode_cons, List.map_cons, List.flatten_cons, ih]
  · intro id h
    simp [decode, h]
  · intro id tok h hmem
    simp [decode, h, hmem]
  · intro id tok h hmem
    simp [decode, h, hmem]

/-- Witness for C8 on the tokenizer trained from `["ab"]` with target 6:
id 99 is unmapped, id 1 is the unknown special token, id 4 is `a`. -/
theorem claim_C8_witness :
    decode (train ["ab".data] 6) [1, 4, 99] =
      ([1, 4, 99].map (fun id => decode (train ["ab".data] 6) [id])).flatten ∧
    decode (train ["ab".data] 6) [99] = [] ∧
    decode (train ["ab".data] 6) [1] = [] ∧
    decode (train ["ab".data] 6) [4] = ['a'] :=
  ⟨(claim_C8 _ [1, 4, 99]).1,
   (claim_C8 _ []).2.1 99 (by decide),
   (claim_C8 _ []).2.2.1 1 unkToken (by decide) (by decide),
   (claim_C8 _ []).2.2.2 4 ['a'] (by decide) (by decide)⟩

/-! ### Pre-tokenization (claim C9) -/

theorem isWordChar_not_space {c : Char} (h : isWordChar c = true) :
    isSpaceChar c = false := by
  by_contra hs
  simp only [Bool.not_eq_false, isSpaceChar, Bool.or_eq_true, beq_iff_eq] at hs
  rcases hs with ((((hs | hs) | hs) | hs) | hs) | hs <;> subst hs <;> simp [isWordChar] at h

theorem takeWhile_append_eq {p : Char → Bool} :
    ∀ (r rest : List Char), r.all p = true → (∀ c, rest.head? = some c → p c = false) →
      (r ++ rest).takeWhile p = r ∧ (r ++ rest).dropWhile p = rest
  | [], rest, _, hmax => by
    cases rest with
    | nil => simp
    | cons c cs => simp [List.takeWhile_cons, List.dropWhile_cons, hmax c rfl]
  | a :: r, rest, hall, hmax => by
    simp only [List.all_cons, Bool.and_eq_true] at hall
    have ih := takeWhile_append_eq r rest hall.2 hmax
    simp [List.takeWhile_cons, List.dropWhile_cons, hall.1, ih.1, ih.2]

theorem preTokenizeAux_segmentation :
    ∀ (cs acc : List Char), acc.all isWordChar = true →
      Segmentation (acc.reverse ++ cs) (preTokenizeAux cs acc)
  | [], acc, hacc => by
    simp only [preTokenizeAux]
    by_cases h : acc = []
    · subst h
      exact Segmentation.nil
    · rw [if_neg h]
      have hr : acc.reverse ≠ [] := by simpa using h
      exact Segmentation.run rfl hr (by simpa using hacc) (by simp) Segmentation.nil
  | c :: rest, acc, hacc => by
    simp only [preTokenizeAux]
    by_cases hw : isWordChar c
    · rw [if_pos hw]
      have := preTokenizeAux_segmentation rest (c :: acc)
        (by simp only [List.all_cons, Bool.and_eq_true]; exact ⟨hw, hacc⟩)
      simpa [List.reverse_cons] using this
    · rw [if_neg hw]
      have hw' : isWordChar c = false := by simpa using hw
      have tail : Segmentation (c :: rest)
          (if isSpaceChar c then preTokenizeAux rest []
           else [c] :: preTokenizeAux rest []) := by
        by_cases hs : isSpaceChar c
        · rw [if_pos hs]
          exact Segmentation.space hs (preTokenizeAux_segmentation rest [] rfl)
        · rw [if_neg hs]
          exact Segmentation.single hw' (by simpa using hs)
            (preTokenizeAux_segmentation rest [] rfl)
      by_cases h : acc = []
      · subst h
        simpa using tail
      · rw [if_neg h]
        have hr : acc.reverse ≠ [] := by simpa using h
        exact Segmentation.run rfl hr (by simpa using hacc)
          (fun d hd => by simp at hd; rw [← hd]; exact hw') tail

theorem segmentation_unique {cs : List Char} {s₁ : List Str}
    (h₁ : Segmentation cs s₁) :
    ∀ {s₂ : List Str}, Segmentation cs s₂ → s₁ = s₂ := by
  induction h₁ with
  | nil =>
    intro s₂ h₂
    cases h₂ with
    | nil => rfl
    | run heq hne hall hmax hrest =>
      obtain ⟨hr, -⟩ := List.append_eq_nil.mp heq.symm
      exact absurd hr hne
  | space hsp hrest ih =>
    intro s₂ h₂
    cases h₂ with
    | space _ h => exact ih h
    | single hw hs h => simp [hsp] at hs
    | run heq hne hall hmax hrest₂ =>
      obtain ⟨a, r', rfl⟩ := List.exists_cons_of_ne_nil hne
      simp only [List.cons_append, List.cons.injEq] at heq
      obtain ⟨rfl, -⟩ := heq
      simp only [List.all_cons, Bool.and_eq_true] at hall
      rw [isWordChar_not_space hall.1] at hsp
      exact absurd hsp (by simp)
  | single hw hsp hrest ih =>
    intro s₂ h₂
    cases h₂ with
    | space hs h => simp [hs] at hsp
    | single _ _ h => rw [ih h]
    | run heq hne hall hmax hrest₂ =>
      obtain ⟨a, r', rfl⟩ := List.exists_cons_of_ne_nil hne
      simp only [List.cons_append, List.cons.injEq] at heq
      obtain ⟨rfl, -⟩ := heq
      simp only [List.all_cons, Bool.and_eq_true] at hall
      rw [hall.1] at hw
      exact absurd hw (by simp)
  | run heq hne hall hmax hrest ih =>
    intro s₂ h₂
    cases h₂ with
    | nil =>
      obtain ⟨hr, -⟩ := List.append_eq_nil.mp heq.symm
      exact absurd hr hne
    | space hs h =>
      obtain ⟨a, r', rfl⟩ := List.exists_cons_of_ne_nil hne
      simp only [List.cons_append, List.cons.injEq] at heq
      obtain ⟨rfl, -⟩ := heq
      simp only [List.all_cons, Bool.and_eq_true] at hall
      rw [isWordChar_not_space hall.1] at hs
      exact absurd hs (by simp)
    | single hw hs h =>
      obtain ⟨a, r', rfl⟩ := List.exists_cons_of_ne_nil hne
      simp only [List.cons_append, List.cons.injEq] at heq
      obtain ⟨rfl, -⟩ := heq
      simp only [List.all_cons, Bool.and_eq_true] at hall
      rw [hall.1] at hw
      exact absurd hw (by simp)
    | run heq₂ hne₂ hall₂ hmax₂ hrest₂ =>
      rename_i r₂ rest₂ segs₂
      have e₁ := takeWhile_append_eq _ _ hall hmax
      have e₂ := takeWhile_append_eq _ _ hall₂ hmax₂
      rw [← heq₂, heq] at e₂
      have hr : r₂ = _ := e₂.1.symm.trans e₁.1
      have hrest' : rest₂ = _ := e₂.2.symm.trans e₁.2
      subst hr
      subst hrest'
      rw [ih hrest₂]

theorem preTokenize_segmentation (text : Str) :
    Segmentation (pyLower text) (preTokenize text) := by
  have := preTokenizeAux_segmentation (pyLower text) [] rfl
  simpa [preTokenize] using this

/-- C9 counterexample: on input `"a_b"` the pre-tokenizer returns the
single segment `"a_b"`, which is neither a run of alphanumeric
characters nor a single non-alphanumeric character: `\w` also matches
the underscore, contrary to the claim's "alphanumeric". -/
theorem claim_C9_counterexample :
    preTokenize "a_b".data = [['a', '_', 'b']] ∧
    ¬ ((['a', '_', 'b'].all Char.isAlphanum = true) ∨ ['a', '_', 'b'].length = 1) :=
  ⟨by decide, by decide⟩

/-- C9 amended: the pre-tokenizer lowercases the text and returns, in
order, exactly the maximal runs of word characters (alphanumeric or
underscore) and the single non-word non-whitespace characters, with
whitespace discarded: its output satisfies the declarative `Segmentation`
relation, which pins the output down uniquely. -/
theorem claim_C9_amended :
    (∀ text : Str, Segmentation (pyLower text) (preTokenize text)) ∧
    ∀ (cs : List Char) (s₁ s₂ : List Str),
      Segmentation cs s₁ → Segmentation cs s₂ → s₁ = s₂ := by
  constructor
  · exact preTokenize_segmentation
  · intro cs s₁ s₂ h₁ h₂
    exact segmentation_unique h₁ h₂

/-- Witness for the amended C9 at the concrete input `"a b!"`. -/
theorem claim_C9_amended_witness :
    Segmentation (pyLower "a b!".data) (preTokenize "a b!".data) ∧
    preTokenize "a b!".data = preTokenize "a b!".data :=
  ⟨claim_C9_amended.1 _,
   claim_C9_amended.2 (pyLower "a b!".data) _ _
     (claim_C9_amended.1 _) (claim_C9_amended.1 _)⟩

/-! ### Training-state invariants (towards claims C6 and C7) -/

/-- Every segment of a segmentation is nonempty, and is a word-character
run unless it is a single character. -/
theorem segmentation_segs_shape {cs : List Char} {segs : List Str}
    (h : Segmentation cs segs) :
    ∀ s ∈ segs, s ≠ [] ∧ (s.all isWordChar = true ∨ ∃ c, s = [c]) := by
  induction h with
  | nil => intro s hs; simp at hs
  | space _ _ ih => exact ih
  | single _ _ _ ih =>
    intro s hs
    rcases List.mem_cons.mp hs with rfl | hs
    · exact ⟨by simp, Or.inr ⟨_, rfl⟩⟩
    · exact ih s hs
  | run heq hne hall _ _ ih =>
    intro s hs
    rcases List.mem_cons.mp hs with rfl | hs
    · exact ⟨hne, Or.inl hall⟩
    · exact ih s hs

theorem preTokenize_shape (text : Str) :
    ∀ w ∈ preTokenize text, w ≠ [] ∧ (w.all isWordChar = true ∨ ∃ c, w = [c]) :=
  segmentation_segs_shape (preTokenize_segmentation text)

theorem mem_dictAdd {α : Type} [DecidableEq α] (d : List (α × Nat)) (k : α) (n : Nat) :
    ∀ p ∈ dictAdd d k n, p.1 = k ∨ p ∈ d := by
  induction d with
  | nil => intro p hp; simp [dictAdd] at hp; simp [hp]
  | cons e rest ih =>
    obtain ⟨k', v'⟩ := e
    intro p hp
    by_cases h : k' = k
    · simp only [dictAdd, if_pos h] at hp
      rcases List.mem_cons.mp hp with rfl | hp
      · exact Or.inl h
      · exact Or.inr (List.mem_cons_of_mem _ hp)
    · simp only [dictAdd, if_neg h] at hp
      rcases List.mem_cons.mp hp with rfl | hp
      · exact Or.inr (List.mem_cons_self _ _)
      · rcases ih p hp with h' | h'
        · exact Or.inl h'
        · exact Or.inr (List.mem_cons_of_mem _ h')

theorem buildWordFreqs_keys (texts : List Str) :
    ∀ p ∈ buildWordFreqs texts,
      p.1 ≠ [] ∧ (p.1.all isWordChar = true ∨ ∃ c, p.1 = [c]) := by
  have inner : ∀ (ws : List Str) (d : List (Str × Nat)),
      (∀ w ∈ ws, w ≠ [] ∧ (w.all isWordChar = true ∨ ∃ c, w = [c])) →
      (∀ p ∈ d, p.1 ≠ [] ∧ (p.1.all isWordChar = true ∨ ∃ c, p.1 = [c])) →
      ∀ p ∈ ws.foldl (fun d w => dictAdd d w 1) d,
        p.1 ≠ [] ∧ (p.1.all isWordChar = true ∨ ∃ c, p.1 = [c]) := by
    intro ws
    induction ws with
    | nil => intro d _ hd; exact hd
    | cons w ws ih =>
      intro d hws hd
      refine ih (dictAdd d w 1) (fun x hx => hws x (List.mem_cons_of_mem _ hx)) ?_
      intro p hp
      rcases mem_dictAdd d w 1 p hp with h | h
      · rw [h]; exact hws w (List.mem_cons_self _ _)
      · exact hd p h
  have outer : ∀ (ts : List Str) (d : List (Str × Nat)),
      (∀ p ∈ d, p.1 ≠ [] ∧ (p.1.all isWordChar = true ∨ ∃ c, p.1 = [c])) →
      ∀ p ∈ ts.foldl (fun d t => (preTokenize t).foldl (fun d w => dictAdd d w 1) d) d,
        p.1 ≠ [] ∧ (p.1.all isWordChar = true ∨ ∃ c, p.1 = [c]) := by
    intro ts
    induction ts with
    | nil => intro d hd; exact hd
    | cons t ts ih =>
      intro d hd
      exact ih _ (inner (preTokenize t) d (preTokenize_shape t) hd)
  intro p hp
  exact outer texts [] (by simp) p hp

theorem applyMerge_mem (p : Str × Str) :
    ∀ (l : List Str), ∀ s ∈ applyMerge p l, s ∈ l ∨ s = p.1 ++ p.2
  | [] => by simp [applyMerge]
  | [x] => by simp [applyMerge]
  | x :: y :: rest => by
    intro s hs
    by_cases h : x = p.1 ∧ y = p.2
    · rw [applyMerge, if_pos h] at hs
      rcases List.mem_cons.mp hs with rfl | hs
      · exact Or.inr rfl
      · rcases applyMerge_mem p rest s hs with h' | h'
        · exact Or.inl (by simp [h'])
        · exact Or.inr h'
    · rw [applyMerge, if_neg h] at hs
      rcases List.mem_cons.mp hs with rfl | hs
      · exact Or.inl (List.mem_cons_self _ _)
      · rcases applyMerge_mem p (y :: rest) s hs with h' | h'
        · exact Or.inl (List.mem_cons_of_mem _ h')
        · exact Or.inr h'

theorem pickBest_mem :
    ∀ (l : List ((Str × Str) × Nat)) (bp : Str × Str),
      pickBest l = some bp → ∃ n, (bp, n) ∈ l := by
  have foldl_mem : ∀ (rest : List ((Str × Str) × Nat)) (e : (Str × Str) × Nat),
      rest.foldl (fun best x => if x.2 > best.2 then x else best) e ∈ e :: rest := by
    intro rest
    induction rest with
    | nil => intro e; simp
    | cons x rest ih =>
      intro e
      simp only [List.foldl_cons]
      by_cases h : x.2 > e.2
      · rw [if_pos h]
        rcases List.mem_cons.mp (ih x) with h' | h'
        · rw [h']; simp
        · simp [h']
      · rw [if_neg h]
        rcases List.mem_cons.mp (ih e) with h' | h'
        · rw [h']; simp
        · simp [h']
  intro l bp h
  cases l with
  | nil => simp [pickBest] at h
  | cons e rest =>
    simp only [pickBest, Option.some.injEq] at h
    refine ⟨(rest.foldl (fun best x => if x.2 > best.2 then x else best) e).2, ?_⟩
    rw [← h]
    exact foldl_mem rest e

/-- Adjacent pair of symbols in a split. -/
theorem addPairs_mem (freq : Nat) :
    ∀ (syms : List Str) (d : List ((Str × Str) × Nat)),
      ∀ p ∈ addPairs freq syms d,
        (∃ q ∈ d, q.1 = p.1) ∨ ∃ pre post, syms = pre ++ p.1.1 :: p.1.2 :: post
  | [], d => by intro p hp; exact Or.inl ⟨p, hp, rfl⟩
  | [x], d => by intro p hp; exact Or.inl ⟨p, hp, rfl⟩
  | x :: y :: rest, d => by
    intro p hp
    rw [show addPairs freq (x :: y :: rest) d =
          addPairs freq (y :: rest) (dictAdd d (x, y) freq) from rfl] at hp
    rcases addPairs_mem freq (y :: rest) (dictAdd d (x, y) freq) p hp with ⟨q, hq, hq1⟩ | h
    · rcases mem_dictAdd d (x, y) freq q hq with h' | h'
      · right
        exact ⟨[], rest, by rw [← hq1, h']; rfl⟩
      · exact Or.inl ⟨q, h', hq1⟩
    · obtain ⟨pre, post, hpre⟩ := h
      exact Or.inr ⟨x :: pre, post, by rw [hpre]; rfl⟩

theorem buildPairFreqs_mem (wf : List (Str × Nat)) (splits : List (Str × List Str)) :
    ∀ p ∈ buildPairFreqs wf splits,
      ∃ w syms, dictGet? splits w = some syms ∧
        ∃ pre post, syms = pre ++ p.1.1 :: p.1.2 :: post := by
  have gen : ∀ (l : List (Str × Nat)) (d : List ((Str × Str) × Nat)),
      (∀ p ∈ d, ∃ w syms, dictGet? splits w = some syms ∧
        ∃ pre post, syms = pre ++ p.1.1 :: p.1.2 :: post) →
      ∀ p ∈ l.foldl (fun d q =>
          let split := (dictGet? splits q.1).getD []
          if split.length = 1 then d else addPairs q.2 split d) d,
        ∃ w syms, dictGet? splits w = some syms ∧
          ∃ pre post, syms = pre ++ p.1.1 :: p.1.2 :: post := by
    intro l
    induction l with
    | nil => intro d hd; exact hd
    | cons q l ih =>
      intro d hd
      refine ih _ ?_
      intro p hp
      simp only at hp
      split at hp
      · exact hd p hp
      · rcases addPairs_mem q.2 ((dictGet? splits q.1).getD []) d p hp with ⟨r, hr, hr1⟩ | h
        · obtain ⟨w, syms, h1, h2⟩ := hd r hr
          exact ⟨w, syms, h1, by rw [← hr1]; exact h2⟩
        · cases hg : dictGet? splits q.1 with
          | none =>
            rw [hg] at h
            obtain ⟨pre, post, hpre⟩ := h
            simp at hpre
          | some syms =>
            rw [hg] at h
            exact ⟨q.1, syms, hg, h⟩
  intro p hp
  exact gen wf [] (by simp) p hp

/-- Both components of a selected pair are nonempty, and their
concatenation consists of word characters: pairs only arise inside the
split of a multi-character word, which the pre-tokenizer guarantees to be
a word-character run. -/
theorem adj_token_ok {splits : List (Str × List Str)} (h : SplitsOk splits)
    {w : Str} {syms : List Str} {x y : Str}
    (hg : dictGet? splits w = some syms)
    (hadj : ∃ pre post, syms = pre ++ x :: y :: post) :
    x ≠ [] ∧ y ≠ [] ∧ (x ++ y).all isWordChar = true := by
  obtain ⟨pre, post, rfl⟩ := hadj
  obtain ⟨⟨hwne, hw⟩, hflat, hne⟩ := h _ (dictGet?_mem hg)
  simp only at hwne hw hflat hne
  have hx : x ≠ [] := hne x (by simp)
  have hy : y ≠ [] := hne y (by simp)
  refine ⟨hx, hy, ?_⟩
  have hlen : 2 ≤ w.length := by
    rw [← hflat, List.length_flatten]
    have : (pre ++ x :: y :: post).map List.length =
        pre.map List.length ++ x.length :: y.length :: post.map List.length := by simp
    rw [this, List.sum_append]
    have hx1 : 1 ≤ x.length := List.length_pos.mpr hx
    have hy1 : 1 ≤ y.length := List.length_pos.mpr hy
    simp only [List.sum_cons]
    omega
  rcases hw with hw | ⟨c, hc⟩
  · rw [List.all_eq_true] at hw ⊢
    intro a ha
    apply hw
    rw [← hflat]
    rw [List.mem_append] at ha
    simp only [List.flatten_append, List.flatten_cons, List.mem_append]
    tauto
  · rw [hc] at hlen
    simp at hlen

theorem applyStep_stateOk {st : TrainState} (h : StateOk st) {bp : Str × Str}
    (hs : trainStep? st = some bp) : StateOk (applyStep st bp) := by
  obtain ⟨hsp, hv⟩ := h
  obtain ⟨n, hmem⟩ := pickBest_mem _ bp hs
  obtain ⟨w, syms, hg, hadj⟩ := buildPairFreqs_mem st.wordFreqs st.splits _ hmem
  have htok := adj_token_ok hsp hg hadj
  have hne : bp.1 ++ bp.2 ≠ [] := by
    intro hc
    exact htok.1 (List.append_eq_nil.mp hc).1
  constructor
  · intro p hp
    simp only [applyStep, List.mem_map] at hp
    obtain ⟨q, hq, rfl⟩ := hp
    obtain ⟨hq1, hq2, hq3⟩ := hsp q hq
    refine ⟨hq1, ?_, ?_⟩
    · simp only
      split
      · exact hq2
      · rw [applyMerge_flatten]; exact hq2
    · intro s hs'
      simp only at hs'
      split at hs'
      · exact hq3 s hs'
      · rcases applyMerge_mem bp q.2 s hs' with h' | h'
        · exact hq3 s h'
        · rw [h']; exact hne
  · obtain ⟨rest, hrest, hshape⟩ := hv
    refine ⟨rest ++ [bp.1 ++ bp.2], ?_, ?_⟩
    · simp only [applyStep, hrest]
      rw [List.append_assoc]
    · intro s hs'
      rcases List.mem_append.mp hs' with h' | h'
      · exact hshape s h'
      · simp only [List.mem_singleton] at h'
        rw [h']
        exact Or.inr ⟨hne, htok.2.2⟩

theorem seedVocab_vocabOk (wf : List (Str × Nat)) : VocabOk (seedVocab wf) := by
  have chars_aux : ∀ (cs : List Char) (v : List Str),
      ∃ extra, cs.foldl (fun v c => if [c] ∈ v then v else v ++ [[c]]) v = v ++ extra ∧
        ∀ s ∈ extra, ∃ c, s = [c] := by
    intro cs
    induction cs with
    | nil => intro v; exact ⟨[], by simp, by simp⟩
    | cons c cs ih =>
      intro v
      simp only [List.foldl_cons]
      by_cases h : [c] ∈ v
      · rw [if_pos h]; exact ih v
      · rw [if_neg h]
        obtain ⟨extra, he, hsg⟩ := ih (v ++ [[c]])
        refine ⟨[c] :: extra, by rw [he, List.append_assoc]; rfl, ?_⟩
        intro s hs'
        rcases List.mem_cons.mp hs' with rfl | hs'
        · exact ⟨c, rfl⟩
        · exact hsg s hs'
  have outer : ∀ (wfl : List (Str × Nat)) (v : List Str),
      ∃ extra, wfl.foldl (fun v p => p.1.foldl
          (fun v c => if [c] ∈ v then v else v ++ [[c]]) v) v = v ++ extra ∧
        ∀ s ∈ extra, ∃ c, s = [c] := by
    intro wfl
    induction wfl with
    | nil => intro v; exact ⟨[], by simp, by simp⟩
    | cons p wfl ih =>
      intro v
      simp only [List.foldl_cons]
      obtain ⟨e1, he1, hs1⟩ := chars_aux p.1 v
      obtain ⟨e2, he2, hs2⟩ := ih (v ++ e1)
      rw [he1, he2]
      refine ⟨e1 ++ e2, by rw [List.append_assoc], ?_⟩
      intro s hs'
      rcases List.mem_append.mp hs' with h' | h'
      · exact hs1 s h'
      · exact hs2 s h'
  obtain ⟨extra, he, hsg⟩ := outer wf specialTokens
  exact ⟨extra, he, fun s h => Or.inl (hsg s h)⟩

theorem initial_stateOk (texts : List Str) :
    StateOk { wordFreqs := buildWordFreqs texts,
              splits := initSplits (buildWordFreqs texts),
              vocab := seedVocab (buildWordFreqs texts), merges := [] } := by
  constructor
  · intro p hp
    simp only [initSplits, List.mem_map] at hp
    obtain ⟨q, hq, rfl⟩ := hp
    have hk := buildWordFreqs_keys texts q hq
    refine ⟨⟨hk.1, hk.2⟩, flatten_map_singleton _, ?_⟩
    intro s hs
    simp only [List.mem_map] at hs
    obtain ⟨c, -, rfl⟩ := hs
    simp
  · exact seedVocab_vocabOk _

theorem trainLoop_stateOk (vocabSize : Nat) :
    ∀ fuel (st : TrainState), StateOk st → StateOk (trainLoop vocabSize fuel st) := by
  intro fuel
  induction fuel with
  | zero => intro st h; exact h
  | succ f ih =>
    intro st h
    by_cases hg : st.vocab.length < vocabSize
    · simp only [trainLoop, if_pos hg]
      cases hs : trainStep? st with
      | none => exact h
      | some bp =>
        simp only
        exact ih _ (applyStep_stateOk h hs)
    · simpa [trainLoop, hg] using h

/-! ### Looking up tokens in the final vocabulary dictionary -/

theorem mkVocabDict_concat (v : List Str) (x : Str) :
    mkVocabDict (v ++ [x]) = dictSet (mkVocabDict v) x v.length := by
  unfold mkVocabDict
  rw [List.enum_append]
  have h1 : ([x] : List Str).enumFrom v.length = [(v.length, x)] := by
    simp [List.enumFrom]
  rw [h1, List.foldl_append]
  rfl

/-- The final vocabulary dict maps a token to the index of its last
occurrence in the working vocabulary list. -/
theorem dictGet?_mkVocabDict_last {v : List Str} {tok : Str} {i : Nat}
    (hget : v[i]? = some tok) (hlast : ∀ j, i < j → v[j]? ≠ some tok) :
    dictGet? (mkVocabDict v) tok = some i := by
  induction v using List.reverseRecOn with
  | nil => simp at hget
  | append_singleton v x ih =>
    have hbound : i < v.length + 1 := by
      have := List.getElem?_eq_some.mp hget
      simpa using this.1
    rw [mkVocabDict_concat, dictGet?_dictSet]
    by_cases hx : x = tok
    · subst hx
      rw [if_pos rfl]
      congr 1
      by_contra hne
      have hi : i < v.length := by omega
      apply hlast v.length hi
      rw [List.getElem?_append_right (le_refl _)]
      simp
    · rw [if_neg hx]
      have hi : i < v.length := by
        rcases Nat.lt_or_ge i v.length with h' | h'
        · exact h'
        · exfalso
          have : i = v.length := by omega
          subst this
          rw [List.getElem?_append_right (le_refl _)] at hget
          simp at hget
          exact hx hget
      apply ih
      · rw [List.getElem?_append_left hi] at hget
        exact hget
      · intro j hj hc
        apply hlast j hj
        have hjl : j < v.length := by
          have := List.getElem?_eq_some.mp hc
          exact this.1
        rw [List.getElem?_append_left hjl]
        exact hc

/-- In a well-formed working vocabulary, the four special tokens occupy
exactly the ids 0, 1, 2, 3 of the final dictionary. -/
theorem vocabOk_special_ids {v : List Str} (h : VocabOk v) :
    dictGet? (mkVocabDict v) padToken = some 0 ∧
    dictGet? (mkVocabDict v) unkToken = some 1 ∧
    dictGet? (mkVocabDict v) bosToken = some 2 ∧
    dictGet? (mkVocabDict v) eosToken = some 3 := by
  obtain ⟨rest, rfl, hshape⟩ := h
  have hrest : ∀ tok ∈ specialTokens, ∀ s ∈ rest, s ≠ tok := by
    intro tok htok s hs hc
    subst hc
    rcases hshape s hs with ⟨c, hc⟩ | ⟨-, hword⟩
    · have := congrArg List.length hc
      fin_cases htok <;> simp [padToken, unkToken, bosToken, eosToken] at this
    · fin_cases htok <;> exact absurd hword (by decide)
  have main : ∀ (tok : Str) (i : Nat), specialTokens[i]? = some tok →
      (∀ j, i < j → specialTokens[j]? ≠ some tok) →
      dictGet? (mkVocabDict (specialTokens ++ rest)) tok = some i := by
    intro tok i hi hj
    have hilen : i < specialTokens.length := (List.getElem?_eq_some.mp hi).1
    apply dictGet?_mkVocabDict_last
    · rw [List.getElem?_append_left hilen]
      exact hi
    · intro j hj'
      by_cases hjl : j < specialTokens.length
      · rw [List.getElem?_append_left hjl]
        exact hj j hj'
      · rw [List.getElem?_append_right (by omega)]
        intro hc
        have hmem := List.getElem?_mem hc
        have htokmem : tok ∈ specialTokens := List.getElem?_mem hi
        exact hrest tok htokmem _ hmem rfl
  refine ⟨main padToken 0 rfl ?_, main unkToken 1 rfl ?_,
          main bosToken 2 rfl ?_, main eosToken 3 rfl ?_⟩ <;>
    (intro j hj hc
     have hjl : j < 4 := by
       simpa [specialTokens] using (List.getElem?_eq_some.mp hc).1
     interval_cases j <;> exact absurd hc (by decide))

/-! ### Encoding never fails on a trained tokenizer (claim C6) -/

theorem encodeTokens_eq_map {vocab : List (Str × Nat)}
    (hunk : dictGet? vocab unkToken = some 1) :
    ∀ toks : List Str, encodeTokens vocab toks =
      some (toks.map (fun tok =>
        match dictGet? vocab tok with | some id => id | none => 1)) := by
  intro toks
  induction toks with
  | nil => rfl
  | cons tok rest ih =>
    simp only [encodeTokens]
    cases h : dictGet? vocab tok with
    | some id => simp [h, ih]
    | none => simp [h, hunk, ih]

/-- C6: on any tokenizer produced by `train`, `encode` never fails: the
unknown token holds id 1, and every symbol produced by word tokenization
that is absent from the vocabulary is mapped to that id instead of
raising an error. -/
theorem claim_C6 (texts : List Str) (vocabSize : Nat) (text : Str) :
    ∃ ids, encode (train texts vocabSize) text = some ids ∧
      dictGet? (train texts vocabSize).vocab unkToken = some 1 ∧
      ids = (((preTokenize text).map
          (tokenizeWord (train texts vocabSize).merges)).flatten).map
        (fun tok => match dictGet? (train texts vocabSize).vocab tok with
                    | some id => id
                    | none => 1) := by
  have hstate := trainLoop_stateOk vocabSize vocabSize _ (initial_stateOk texts)
  have hunk : dictGet? (train texts vocabSize).vocab unkToken = some 1 :=
    (vocabOk_special_ids hstate.2).2.1
  refine ⟨_, ?_, hunk, rfl⟩
  exact encodeTokens_eq_map hunk _

/-! ### Chunk and expansion algebra of the sweep (towards claim C7) -/

theorem isChunk_nil {α : Type} (l : List α) : IsChunk [] l := ⟨[], l, by simp⟩

theorem isChunk_self {α : Type} (l : List α) : IsChunk l l := ⟨[], [], by simp⟩

theorem isChunk_of_mem {α : Type} {a : α} {l : List α} (h : a ∈ l) : IsChunk [a] l := by
  obtain ⟨s, t, rfl⟩ := List.append_of_mem h
  exact ⟨s, t, by simp⟩

theorem isChunk_cons {α : Type} {r l : List α} (x : α) (h : IsChunk r l) :
    IsChunk r (x :: l) := by
  obtain ⟨pre, post, rfl⟩ := h
  exact ⟨x :: pre, post, rfl⟩

theorem isChunk_cons_elim {α : Type} {r : List α} {x : α} {l : List α}
    (h : IsChunk r (x :: l)) :
    r = [] ∨ (∃ C', r = x :: C' ∧ ∃ post, l = C' ++ post) ∨ IsChunk r l := by
  obtain ⟨pre, post, hpre⟩ := h
  cases pre with
  | nil =>
    cases r with
    | nil => exact Or.inl rfl
    | cons a C' =>
      simp only [List.nil_append, List.cons_append, List.cons.injEq] at hpre
      exact Or.inr (Or.inl ⟨C', by rw [hpre.1], ⟨post, hpre.2⟩⟩)
  | cons b pre' =>
    simp only [List.cons_append, List.cons.injEq] at hpre
    exact Or.inr (Or.inr ⟨pre', post, hpre.2⟩)

theorem expandMerge_cons (p : Str × Str) (b : Str) (l : List Str) :
    expandMerge p (b :: l) =
      (if b = p.1 ++ p.2 then [p.1, p.2] else [b]) ++ expandMerge p l := by
  simp [expandMerge]

theorem expandMerge_append (p : Str × Str) (l₁ l₂ : List Str) :
    expandMerge p (l₁ ++ l₂) = expandMerge p l₁ ++ expandMerge p l₂ := by
  simp [expandMerge]

theorem flatten_expandMerge (p : Str × Str) (l : List Str) :
    (expandMerge p l).flatten = l.flatten := by
  induction l with
  | nil => rfl
  | cons b l ih =>
    rw [expandMerge_cons, List.flatten_append, ih, List.flatten_cons]
    split
    · rename_i hb
      simp [hb]
    · simp

theorem length_le_expandMerge (p : Str × Str) (l : List Str) :
    l.length ≤ (expandMerge p l).length := by
  induction l with
  | nil => simp [expandMerge]
  | cons b l ih =>
    rw [expandMerge_cons, List.length_append]
    split <;> (simp only [List.length_cons, List.length_singleton]; omega)

theorem applyMerge_cons_match (p : Str × Str) (rest : List Str) :
    applyMerge p (p.1 :: p.2 :: rest) = (p.1 ++ p.2) :: applyMerge p rest := by
  rw [applyMerge, if_pos ⟨rfl, rfl⟩]

theorem applyMerge_cons_no_match (p : Str × Str) (x : Str) (M : List Str)
    (h : ∀ z M', M = z :: M' → ¬(x = p.1 ∧ z = p.2)) :
    applyMerge p (x :: M) = x :: applyMerge p M := by
  cases M with
  | nil => rfl
  | cons z M' => rw [applyMerge, if_neg (h z M' rfl)]

/-- Head of a sweep output: either the first two symbols merged, or the
first symbol is passed through unchanged. -/
theorem applyMerge_head (p : Str × Str) :
    ∀ (l : List Str) (z : Str) (o' : List Str), applyMerge p l = z :: o' →
      (∃ rest, l = p.1 :: p.2 :: rest ∧ z = p.1 ++ p.2 ∧ o' = applyMerge p rest) ∨
      ∃ rest, l = z :: rest
  | [], z, o', h => by simp [applyMerge] at h
  | [x], z, o', h => by
    simp only [applyMerge, List.cons.injEq] at h
    exact Or.inr ⟨[], by rw [h.1]⟩
  | x :: y :: rest, z, o', h => by
    by_cases hm : x = p.1 ∧ y = p.2
    · rw [applyMerge, if_pos hm] at h
      simp only [List.cons.injEq] at h
      exact Or.inl ⟨rest, by rw [hm.1, hm.2], h.1.symm, h.2.symm⟩
    · rw [applyMerge, if_neg hm] at h
      simp only [List.cons.injEq] at h
      exact Or.inr ⟨y :: rest, by rw [h.1]⟩

/-- Expansion undoes a sweep when the merged token did not already occur
as a symbol. -/
theorem expandMerge_applyMerge (p : Str × Str) :
    ∀ l : List Str, (p.1 ++ p.2) ∉ l → expandMerge p (applyMerge p l) = l
  | [], _ => rfl
  | [x], h => by
    have hx : x ≠ p.1 ++ p.2 := fun hc => h (by simp [hc])
    simp only [applyMerge, expandMerge_cons, if_neg hx]
    rfl
  | x :: y :: rest, h => by
    have hx : x ≠ p.1 ++ p.2 := fun hc => h (by simp [hc])
    have hrest : (p.1 ++ p.2) ∉ rest := fun hc => h (by simp [hc])
    by_cases hm : x = p.1 ∧ y = p.2
    · rw [applyMerge, if_pos hm, expandMerge_cons, if_pos rfl,
        expandMerge_applyMerge p rest hrest, hm.1, hm.2]
      rfl
    · rw [applyMerge, if_neg hm, expandMerge_cons, if_neg hx,
        expandMerge_applyMerge p (y :: rest) (fun hc => h (List.mem_cons_of_mem _ hc))]
      rfl

/-- Core re-merge lemma: a contiguous chunk of a sweep output, expanded,
sweeps back to exactly that chunk.  This is what makes the sweep act
identically on equal runs regardless of their context. -/
theorem applyMerge_expand_chunk (p : Str × Str) :
    ∀ (l C : List Str), (p.1 ++ p.2) ∉ l → IsChunk C (applyMerge p l) →
      applyMerge p (expandMerge p C) = C
  | [], C, _, hc => by
    obtain ⟨pre, post, h⟩ := hc
    have h' : pre ++ C ++ post = [] := h.symm.trans (show applyMerge p [] = [] from rfl)
    simp only [List.append_eq_nil] at h'
    rw [h'.1.2]
    rfl
  | [x], C, hnm, hc => by
    obtain ⟨pre, post, h⟩ := hc
    have h' : pre ++ C ++ post = [x] := h.symm.trans (show applyMerge p [x] = [x] from rfl)
    have hx : x ≠ p.1 ++ p.2 := fun hc' => hnm (by simp [hc'])
    cases pre with
    | cons b pre' =>
      simp only [List.cons_append, List.cons.injEq] at h'
      simp only [List.append_eq_nil] at h'
      rw [h'.2.1.2]
      rfl
    | nil =>
      cases C with
      | nil => rfl
      | cons a C' =>
        simp only [List.nil_append, List.cons_append, List.cons.injEq] at h'
        obtain ⟨rfl, h2⟩ := h'
        simp only [List.append_eq_nil] at h2
        rw [h2.1]
        simp only [expandMerge_cons, if_neg hx]
        rfl
  | x :: y :: rest, C, hnm, hc => by
    have hx : x ≠ p.1 ++ p.2 := fun hc' => hnm (by simp [hc'])
    have hyrest : (p.1 ++ p.2) ∉ y :: rest := fun hc' => hnm (List.mem_cons_of_mem _ hc')
    have hrest : (p.1 ++ p.2) ∉ rest := fun hc' => hnm (by simp [hc'])
    by_cases hm : x = p.1 ∧ y = p.2
    · rw [show applyMerge p (x :: y :: rest) = (p.1 ++ p.2) :: applyMerge p rest from by
        rw [applyMerge, if_pos hm]] at hc
      rcases isChunk_cons_elim hc with rfl | ⟨C', rfl, post, hpost⟩ | hc'
      · rfl
      · have hc'' : IsChunk C' (applyMerge p rest) := ⟨[], post, by rw [hpost]; rfl⟩
        have ih := applyMerge_expand_chunk p rest C' hrest hc''
        rw [expandMerge_cons, if_pos rfl,
          show ([p.1, p.2] : List Str) ++ expandMerge p C' =
            p.1 :: p.2 :: expandMerge p C' from rfl,
          applyMerge_cons_match, ih]
      · exact applyMerge_expand_chunk p rest C hrest hc'
    · rw [show applyMerge p (x :: y :: rest) = x :: applyMerge p (y :: rest) from by
        rw [applyMerge, if_neg hm]] at hc
      rcases isChunk_cons_elim hc with rfl | ⟨C', rfl, post, hpost⟩ | hc'
      · rfl
      · have hc'' : IsChunk C' (applyMerge p (y :: rest)) := ⟨[], post, by rw [hpost]; rfl⟩
        have ih := applyMerge_expand_chunk p (y :: rest) C' hyrest hc''
        have hnomatch : ∀ z M', expandMerge p C' = z :: M' → ¬(x = p.1 ∧ z = p.2) := by
          intro z M' hz hcon
          obtain ⟨hxp, hzp⟩ := hcon
          cases C0 : C' with
          | nil =>
            rw [C0] at hz
            simp [expandMerge] at hz
          | cons w C'' =>
            rw [C0, expandMerge_cons] at hz
            have hhead : applyMerge p (y :: rest) = w :: (C'' ++ post) := by
              rw [hpost, C0]
              simp
            by_cases hw : w = p.1 ++ p.2
            · rw [if_pos hw] at hz
              simp only [List.cons_append, List.nil_append, List.cons.injEq] at hz
              have hz1 : p.1 = z := hz.1
              rcases applyMerge_head p (y :: rest) w _ hhead with
                ⟨rest', hl, -, -⟩ | ⟨rest', hl⟩
              · have hy : y = p.1 := by
                  have := congrArg List.head? hl
                  simpa using this
                exact hm ⟨hxp, by rw [hy, hz1, hzp]⟩
              · have hyw : y = w := by
                  have := congrArg List.head? hl
                  simpa using this
                exact hyrest (by rw [← hw, ← hyw]; exact List.mem_cons_self _ _)
            · rw [if_neg hw] at hz
              simp only [List.cons_append, List.nil_append, List.cons.injEq] at hz
              have hzw : w = z := hz.1
              rcases applyMerge_head p (y :: rest) w _ hhead with
                ⟨rest', hl, hzW, -⟩ | ⟨rest', hl⟩
              · exact hw hzW
              · have hy : y = w := by
                  have := congrArg List.head? hl
                  simpa using this
                exact hm ⟨hxp, by rw [hy, hzw, hzp]⟩
        rw [expandMerge_cons, if_neg hx,
          show ([x] : List Str) ++ expandMerge p C' = x :: expandMerge p C' from rfl,
          applyMerge_cons_no_match p x _ hnomatch, ih]
      · exact applyMerge_expand_chunk p (y :: rest) C hyrest hc'

/-! ### The sweep preserves run uniqueness and freshness -/

/-- Under run uniqueness, an occurring pair's merged token is not itself
a symbol anywhere in the table. -/
theorem no_block_eq_token {splits : List (Str × List Str)} (hU : RunsUnique splits)
    {u v : Str} (hocc : IsRun splits [u, v]) :
    ∀ q ∈ splits, (u ++ v) ∉ q.2 := by
  intro q hq hb
  have h1 : IsRun splits [u ++ v] := ⟨q, hq, isChunk_of_mem hb⟩
  have h2 : ([u ++ v] : List Str).flatten = ([u, v] : List Str).flatten := by simp
  have h3 := hU _ _ h1 hocc h2
  simpa using congrArg List.length h3

theorem isRun_sweep_elim {splits : List (Str × List Str)} {p : Str × Str} {r : List Str}
    (h : IsRun (splits.map (fun q => (q.1, applyMerge p q.2))) r) :
    ∃ q ∈ splits, IsChunk r (applyMerge p q.2) := by
  obtain ⟨q', hq', hchunk⟩ := h
  simp only [List.mem_map] at hq'
  obtain ⟨q, hq, rfl⟩ := hq'
  exact ⟨q, hq, hchunk⟩

theorem isRun_expand {splits : List (Str × List Str)} {p : Str × Str}
    (hnoblock : ∀ q ∈ splits, (p.1 ++ p.2) ∉ q.2)
    {r : List Str} (h : ∃ q ∈ splits, IsChunk r (applyMerge p q.2)) :
    IsRun splits (expandMerge p r) := by
  obtain ⟨q, hq, pre, post, hdec⟩ := h
  refine ⟨q, hq, expandMerge p pre, expandMerge p post, ?_⟩
  have he := expandMerge_applyMerge p q.2 (hnoblock q hq)
  rw [← he, hdec, expandMerge_append, expandMerge_append]

/-- One sweep preserves run uniqueness and freshness, and the merged
token is fresh: this is the heart of claim C7. -/
theorem sweep_step {splits : List (Str × List Str)} {M : List Str} {p : Str × Str}
    (hU : RunsUnique splits) (hR : RunsFresh splits M)
    (hocc : IsRun splits [p.1, p.2]) :
    (p.1 ++ p.2) ∉ M ∧
    RunsUnique (splits.map (fun q => (q.1, applyMerge p q.2))) ∧
    RunsFresh (splits.map (fun q => (q.1, applyMerge p q.2))) (M ++ [p.1 ++ p.2]) := by
  have hnoblock := no_block_eq_token hU hocc
  have hfresh : (p.1 ++ p.2) ∉ M := by
    have := hR [p.1, p.2] hocc (by simp)
    simpa using this
  have expandRun : ∀ r, IsRun (splits.map (fun q => (q.1, applyMerge p q.2))) r →
      IsRun splits (expandMerge p r) ∧ applyMerge p (expandMerge p r) = r := by
    intro r hr
    obtain ⟨q, hq, hchunk⟩ := isRun_sweep_elim hr
    exact ⟨isRun_expand hnoblock ⟨q, hq, hchunk⟩,
           applyMerge_expand_chunk p q.2 r (hnoblock q hq) hchunk⟩
  refine ⟨hfresh, ?_, ?_⟩
  · intro r₁ r₂ h₁ h₂ hflat
    obtain ⟨hrun₁, hre₁⟩ := expandRun r₁ h₁
    obtain ⟨hrun₂, hre₂⟩ := expandRun r₂ h₂
    have heq : expandMerge p r₁ = expandMerge p r₂ :=
      hU _ _ hrun₁ hrun₂ (by rw [flatten_expandMerge, flatten_expandMerge, hflat])
    rw [← hre₁, ← hre₂, heq]
  · intro r hr hlen hmem
    obtain ⟨hrun, hre⟩ := expandRun r hr
    rcases List.mem_append.mp hmem with hmem' | hmem'
    · exact hR _ hrun (le_trans hlen (length_le_expandMerge p r))
        (by rw [flatten_expandMerge]; exact hmem')
    · simp only [List.mem_singleton] at hmem'
      have heq : expandMerge p r = [p.1, p.2] := by
        apply hU _ _ hrun hocc
        rw [flatten_expandMerge, hmem']
        simp
      rw [heq] at hre
      rw [show applyMerge p [p.1, p.2] = [p.1 ++ p.2] from applyMerge_cons_match p []] at hre
      rw [← hre] at hlen
      simp at hlen

/-! ### The C7 loop invariant -/

theorem applyStep_splits_eq (st : TrainState) (bp : Str × Str) :
    (applyStep st bp).splits = st.splits.map (fun q => (q.1, applyMerge bp q.2)) := by
  simp only [applyStep]
  refine List.map_congr_left ?_
  intro q _
  split
  · rename_i h
    obtain ⟨x, hx⟩ := List.length_eq_one.mp h
    rw [hx]
    rfl
  · rfl

theorem singleton_blocks_eq {r : List Str} (hall : ∀ b ∈ r, ∃ c, b = [c]) :
    r = r.flatten.map (fun c => [c]) := by
  induction r with
  | nil => rfl
  | cons b r ih =>
    obtain ⟨c, rfl⟩ := hall b (List.mem_cons_self _ _)
    rw [List.flatten_cons]
    simp only [List.cons_append, List.nil_append, List.map_cons]
    rw [← ih (fun b hb => hall b (List.mem_cons_of_mem _ hb))]

theorem initSplits_runsUnique (wf : List (Str × Nat)) :
    RunsUnique (initSplits wf) := by
  have hsing : ∀ r, IsRun (initSplits wf) r → r = r.flatten.map (fun c => [c]) := by
    intro r hr
    obtain ⟨q, hq, pre, post, hdec⟩ := hr
    simp only [initSplits, List.mem_map] at hq
    obtain ⟨q', hq', rfl⟩ := hq
    refine singleton_blocks_eq ?_
    intro b hb
    have hdec' : q'.1.map (fun c => [c]) = pre ++ r ++ post := hdec
    have hmem : b ∈ q'.1.map (fun c => [c]) := by
      rw [hdec']
      simp [hb]
    simp only [List.mem_map] at hmem
    obtain ⟨c, -, rfl⟩ := hmem
    exact ⟨c, rfl⟩
  intro r₁ r₂ h₁ h₂ hflat
  rw [hsing r₁ h₁, hsing r₂ h₂, hflat]

theorem initial_C7Inv (texts : List Str) :
    C7Inv (seedVocab (buildWordFreqs texts))
      { wordFreqs := buildWordFreqs texts,
        splits := initSplits (buildWordFreqs texts),
        vocab := seedVocab (buildWordFreqs texts), merges := [] } := by
  refine ⟨initial_stateOk texts, initSplits_runsUnique _, ?_, by simp [mergeTokens],
    by simp [mergeTokens], by simp [mergeTokens]⟩
  intro r _ _ hmem
  simp [mergeTokens] at hmem

theorem applyStep_C7Inv {seed : List Str} {st : TrainState} {bp : Str × Str}
    (hinv : C7Inv seed st) (hs : trainStep? st = some bp) :
    C7Inv seed (applyStep st bp) := by
  obtain ⟨hok, hU, hR, hvocab, hnd, hwc⟩ := hinv
  obtain ⟨n, hmem⟩ := pickBest_mem _ bp hs
  obtain ⟨w, syms, hg, pre, post, hsyms⟩ := buildPairFreqs_mem st.wordFreqs st.splits _ hmem
  have hadj : IsRun st.splits [bp.1, bp.2] := by
    refine ⟨(w, syms), dictGet?_mem hg, pre, post, ?_⟩
    simpa using hsyms
  have htok : bp.1 ≠ [] ∧ bp.2 ≠ [] ∧ (bp.1 ++ bp.2).all isWordChar = true :=
    adj_token_ok hok.1 hg ⟨pre, post, hsyms⟩
  have hstep := sweep_step (M := mergeTokens st.merges) hU hR hadj
  have hsplits_eq := applyStep_splits_eq st bp
  have hmt : mergeTokens (applyStep st bp).merges =
      mergeTokens st.merges ++ [bp.1 ++ bp.2] := by
    simp [applyStep, mergeTokens]
  refine ⟨applyStep_stateOk hok hs, ?_, ?_, ?_, ?_, ?_⟩
  · rw [hsplits_eq]
    exact hstep.2.1
  · rw [hsplits_eq, hmt]
    exact hstep.2.2
  · show st.vocab ++ [bp.1 ++ bp.2] = seed ++ mergeTokens (applyStep st bp).merges
    rw [hmt, hvocab, List.append_assoc]
  · rw [hmt]
    rw [List.nodup_append]
    refine ⟨hnd, List.nodup_singleton _, ?_⟩
    intro g hg1 hg2
    simp only [List.mem_singleton] at hg2
    rw [hg2] at hg1
    exact hstep.1 hg1
  · intro g hgmem
    rw [hmt] at hgmem
    rcases List.mem_append.mp hgmem with h' | h'
    · exact hwc g h'
    · simp only [List.mem_singleton] at h'
      rw [h']
      constructor
      · have h1 := List.length_pos.mpr htok.1
        have h2 := List.length_pos.mpr htok.2.1
        rw [List.length_append]
        omega
      · exact htok.2.2

theorem trainLoop_C7Inv (vocabSize : Nat) (seed : List Str) :
    ∀ fuel (st : TrainState), C7Inv seed st → C7Inv seed (trainLoop vocabSize fuel st) := by
  intro fuel
  induction fuel with
  | zero => intro st h; exact h
  | succ f ih =>
    intro st h
    by_cases hg : st.vocab.length < vocabSize
    · simp only [trainLoop, if_pos hg]
      cases hs : trainStep? st with
      | none => exact h
      | some bp =>
        simp only
        exact ih _ (applyStep_C7Inv h hs)
    · simpa [trainLoop, hg] using h

/-! ### Contiguity of the final vocabulary ids -/

theorem seedVocab_singletons (wf : List (Str × Nat)) :
    ∃ extra, seedVocab wf = specialTokens ++ extra ∧ ∀ s ∈ extra, ∃ c, s = [c] := by
  have chars_aux : ∀ (cs : List Char) (v : List Str),
      ∃ extra, cs.foldl (fun v c => if [c] ∈ v then v else v ++ [[c]]) v = v ++ extra ∧
        ∀ s ∈ extra, ∃ c, s = [c] := by
    intro cs
    induction cs with
    | nil => intro v; exact ⟨[], by simp, by simp⟩
    | cons c cs ih =>
      intro v
      simp only [List.foldl_cons]
      by_cases h : [c] ∈ v
      · rw [if_pos h]; exact ih v
      · rw [if_neg h]
        obtain ⟨extra, he, hsg⟩ := ih (v ++ [[c]])
        refine ⟨[c] :: extra, by rw [he, List.append_assoc]; rfl, ?_⟩
        intro s hs'
        rcases List.mem_cons.mp hs' with rfl | hs'
        · exact ⟨c, rfl⟩
        · exact hsg s hs'
  have outer : ∀ (wfl : List (Str × Nat)) (v : List Str),
      ∃ extra, wfl.foldl (fun v p => p.1.foldl
          (fun v c => if [c] ∈ v then v else v ++ [[c]]) v) v = v ++ extra ∧
        ∀ s ∈ extra, ∃ c, s = [c] := by
    intro wfl
    induction wfl with
    | nil => intro v; exact ⟨[], by simp, by simp⟩
    | cons p wfl ih =>
      intro v
      simp only [List.foldl_cons]
      obtain ⟨e1, he1, hs1⟩ := chars_aux p.1 v
      obtain ⟨e2, he2, hs2⟩ := ih (v ++ e1)
      rw [he1, he2]
      refine ⟨e1 ++ e2, by rw [List.append_assoc], ?_⟩
      intro s hs'
      rcases List.mem_append.mp hs' with h' | h'
      · exact hs1 s h'
      · exact hs2 s h'
  exact outer wf specialTokens

theorem seedVocab_nodup (wf : List (Str × Nat)) : (seedVocab wf).Nodup := by
  have chars_aux : ∀ (cs : List Char) (v : List Str), v.Nodup →
      (cs.foldl (fun v c => if [c] ∈ v then v else v ++ [[c]]) v).Nodup := by
    intro cs
    induction cs with
    | nil => intro v h; exact h
    | cons c cs ih =>
      intro v h
      simp only [List.foldl_cons]
      by_cases hmem : [c] ∈ v
      · rw [if_pos hmem]; exact ih v h
      · rw [if_neg hmem]
        refine ih _ ?_
        rw [List.nodup_append]
        refine ⟨h, List.nodup_singleton _, ?_⟩
        intro a ha hb
        simp only [List.mem_singleton] at hb
        rw [hb] at ha
        exact hmem ha
  have outer : ∀ (wfl : List (Str × Nat)) (v : List Str), v.Nodup →
      (wfl.foldl (fun v p => p.1.foldl
        (fun v c => if [c] ∈ v then v else v ++ [[c]]) v) v).Nodup := by
    intro wfl
    induction wfl with
    | nil => intro v h; exact h
    | cons p wfl ih =>
      intro v h
      simp only [List.foldl_cons]
      exact ih _ (chars_aux p.1 v h)
  exact outer wf specialTokens (by decide)

theorem mergeToken_not_in_seed {wf : List (Str × Nat)} {g : Str}
    (hlen : 2 ≤ g.length) (hwc : g.all isWordChar = true) :
    g ∉ seedVocab wf := by
  obtain ⟨extra, he, hsing⟩ := seedVocab_singletons wf
  rw [he]
  intro hmem
  rcases List.mem_append.mp hmem with h | h
  · fin_cases h <;> exact absurd hwc (by decide)
  · obtain ⟨c, rfl⟩ := hsing _ h
    simp at hlen

theorem dictSet_append_new {α β : Type} [DecidableEq α] :
    ∀ (d : List (α × β)) (k : α) (v : β), (∀ q ∈ d, q.1 ≠ k) →
      dictSet d k v = d ++ [(k, v)]
  | [], _, _, _ => rfl
  | (k', v') :: d, k, v, h => by
    simp only [dictSet]
    rw [if_neg (h (k', v') (List.mem_cons_self _ _))]
    rw [dictSet_append_new d k v (fun q hq => h q (List.mem_cons_of_mem _ hq))]
    rfl

theorem mem_dictSet {α β : Type} [DecidableEq α] :
    ∀ (d : List (α × β)) (k : α) (v : β) (q : α × β),
      q ∈ dictSet d k v → q ∈ d ∨ q.1 = k
  | [], k, v, q, h => by
    simp only [dictSet, List.mem_singleton] at h
    right; rw [h]
  | (k', v') :: d, k, v, q, h => by
    simp only [dictSet] at h
    by_cases hk : k' = k
    · rw [if_pos hk] at h
      rcases List.mem_cons.mp h with h' | h'
      · right; rw [h']; exact hk
      · left; exact List.mem_cons_of_mem _ h'
    · rw [if_neg hk] at h
      rcases List.mem_cons.mp h with h' | h'
      · left; rw [h']; exact List.mem_cons_self _ _
      · rcases mem_dictSet d k v q h' with h'' | h''
        · left; exact List.mem_cons_of_mem _ h''
        · right; exact h''

theorem mkVocabDict_keys : ∀ (v : List Str) (q : Str × Nat), q ∈ mkVocabDict v → q.1 ∈ v := by
  intro v
  induction v using List.reverseRecOn with
  | nil => intro q h; simp [mkVocabDict] at h
  | append_singleton v x ih =>
    intro q h
    rw [mkVocabDict_concat] at h
    rcases mem_dictSet _ _ _ _ h with h' | h'
    · exact List.mem_append_left _ (ih q h')
    · rw [h']; exact List.mem_append_right _ (List.mem_singleton_self x)

theorem mkVocabDict_map_snd : ∀ (v : List Str), v.Nodup →
    (mkVocabDict v).map Prod.snd = List.range v.length := by
  intro v
  induction v using List.reverseRecOn with
  | nil => intro _; rfl
  | append_singleton v x ih =>
    intro h
    obtain ⟨hv, -, hdisj⟩ := List.nodup_append.mp h
    have hx : x ∉ v := fun hin => hdisj hin (List.mem_singleton_self x)
    rw [mkVocabDict_concat,
      dictSet_append_new _ _ _
        (fun q hq hc => hx (by rw [← hc]; exact mkVocabDict_keys v q hq))]
    rw [List.map_append, ih hv]
    simp [List.range_succ]

theorem mkVocabDict_length_of_nodup (v : List Str) (h : v.Nodup) :
    (mkVocabDict v).length = v.length := by
  have hm := congrArg List.length (mkVocabDict_map_snd v h)
  simpa using hm

/-- C7: after `BPETokenizer.train` completes, the set of ids in the final
vocabulary dictionary is exactly {0, ..., n-1} where n is the number of
vocabulary entries, and the four special tokens pad, unk, bos, eos hold the
fixed lowest ids 0, 1, 2, 3 assigned at initialization. -/
theorem claim_C7 (texts : List Str) (vocabSize : Nat) :
    idsContiguousFrom0 (train texts vocabSize).vocab ∧
    dictGet? (train texts vocabSize).vocab padToken = some 0 ∧
    dictGet? (train texts vocabSize).vocab unkToken = some 1 ∧
    dictGet? (train texts vocabSize).vocab bosToken = some 2 ∧
    dictGet? (train texts vocabSize).vocab eosToken = some 3 := by
  have hinv := trainLoop_C7Inv vocabSize (seedVocab (buildWordFreqs texts)) vocabSize
    { wordFreqs := buildWordFreqs texts, splits := initSplits (buildWordFreqs texts),
      vocab := seedVocab (buildWordFreqs texts), merges := [] } (initial_C7Inv texts)
  obtain ⟨hok, -, -, hvocab, hnd, hwc⟩ := hinv
  have hstv : (train texts vocabSize).vocab =
      mkVocabDict (trainLoop vocabSize vocabSize
        { wordFreqs := buildWordFreqs texts, splits := initSplits (buildWordFreqs texts),
          vocab := seedVocab (buildWordFreqs texts), merges := [] }).vocab := rfl
  have hnodup : (trainLoop vocabSize vocabSize
      { wordFreqs := buildWordFreqs texts, splits := initSplits (buildWordFreqs texts),
        vocab := seedVocab (buildWordFreqs texts), merges := [] }).vocab.Nodup := by
    rw [hvocab, List.nodup_append]
    refine ⟨seedVocab_nodup _, hnd, ?_⟩
    intro g hg1 hg2
    obtain ⟨h2, hall⟩ := hwc g hg2
    exact mergeToken_not_in_seed h2 hall hg1
  refine ⟨?_, ?_⟩
  · rw [hstv]
    unfold idsContiguousFrom0
    rw [mkVocabDict_map_snd _ hnodup, mkVocabDict_length_of_nodup _ hnodup]
    ext m
    simp [List.mem_range]
  · rw [hstv]
    exact vocabOk_special_ids hok.2

end BPE
